import Mathlib

/-!
Verification of the PMDBot synchronization engine against its
natural-language specification.

The Python sources are shallowly embedded: strings become `List Char`
(one entry per Python character), `datetime` instants become `Nat`
seconds, Python dicts become functions into `Option`, and module-level
mutable globals become explicit state records threaded through the
operations.  Each definition is translated from the corresponding
function of the repository (file and symbol named in its doc comment).
-/

set_option maxRecDepth 4000

namespace PMDBot

/-! ### Generic list/string helpers (Python primitives) -/

/-- Python whitespace characters relevant to `str.split()` / `str.strip()`
(ASCII subset; the sources only ever contain these). -/
def isPySpace (c : Char) : Bool :=
  c = ' ' || c = '\t' || c = '\n' || c = '\r' || c = '\x0b' || c = '\x0c'

/-- Python `str.strip()`: remove whitespace from both ends. -/
def pyStrip (l : List Char) : List Char :=
  ((l.dropWhile isPySpace).reverse.dropWhile isPySpace).reverse

/-- Python slice `s[1:-1]`. -/
def pySlice1m1 (l : List Char) : List Char :=
  (l.drop 1).dropLast

/-- Python `s.startswith(p)` for sequences. -/
def listStartsWith : List Char → List Char → Bool
  | _, [] => true
  | [], _ :: _ => false
  | c :: cs, p :: ps => c = p && listStartsWith cs ps

/-- Python `p in s` (substring containment). -/
def containsSeq : List Char → List Char → Bool
  | [], pat => pat.isEmpty
  | c :: cs, pat => listStartsWith (c :: cs) pat || containsSeq cs pat

/-- Python `s.split(c)` for a single-character separator (keeps empty parts). -/
def splitOnChar (sep : Char) : List Char → List (List Char)
  | [] => [[]]
  | c :: cs =>
    if c = sep then [] :: splitOnChar sep cs
    else
      match splitOnChar sep cs with
      | [] => [[c]]
      | s :: ss => (c :: s) :: ss

/-- Python `s.split(sep)` for a multi-character separator, fuelled so that
concrete instances reduce in the kernel.  Fuel at least `l.length` is
always sufficient (each step consumes at least one character). -/
def splitSeqF (sep : List Char) : Nat → List Char → List (List Char)
  | 0, l => [l]
  | _ + 1, [] => [[]]
  | f + 1, c :: cs =>
    if !sep.isEmpty && listStartsWith (c :: cs) sep then
      [] :: splitSeqF sep f ((c :: cs).drop sep.length)
    else
      match splitSeqF sep f cs with
      | [] => [[c]]
      | s :: ss => (c :: s) :: ss

def splitSeq (sep l : List Char) : List (List Char) :=
  splitSeqF sep l.length l

/-- Python `s.replace(pat, rep)` (all occurrences, left to right,
non-overlapping), fuelled for kernel reduction. -/
def replaceAllF (pat rep : List Char) : Nat → List Char → List Char
  | 0, l => l
  | _ + 1, [] => []
  | f + 1, c :: cs =>
    if !pat.isEmpty && listStartsWith (c :: cs) pat then
      rep ++ replaceAllF pat rep f ((c :: cs).drop pat.length)
    else
      c :: replaceAllF pat rep f cs

def replaceAll (pat rep l : List Char) : List Char :=
  replaceAllF pat rep l.length l

/-- Python `s.split()` (split on whitespace runs, no empty words);
`cur` accumulates the current word. -/
def wordsByAux (cur : List Char) : List Char → List (List Char)
  | [] => if cur.isEmpty then [] else [cur]
  | c :: rest =>
    if isPySpace c then
      if cur.isEmpty then wordsByAux [] rest
      else cur :: wordsByAux [] rest
    else wordsByAux (cur ++ [c]) rest

/-- Python `' '.join(s.split())` — collapse whitespace runs and trim. -/
def collapseWs (l : List Char) : List Char :=
  List.intercalate [' '] (wordsByAux [] l)

/-! ### QueueManager (src/queue_manager.py) -/

/-- State of `queue_manager.QueueManager`. -/
structure QueueManager where
  queue : List Nat
  processing : Bool
  deriving DecidableEq

/-- `QueueManager.__init__`. -/
def QueueManager.init : QueueManager := ⟨[], false⟩

/-- `QueueManager.is_user_in_queue`. -/
def QueueManager.is_user_in_queue (q : QueueManager) (user_id : Nat) : Bool :=
  user_id ∈ q.queue

/-- `QueueManager.add_user`: append if absent, report whether inserted. -/
def QueueManager.add_user (q : QueueManager) (user_id : Nat) : Bool × QueueManager :=
  if q.is_user_in_queue user_id then (false, q)
  else (true, { q with queue := q.queue ++ [user_id] })

/-- `QueueManager.get_next`: pop the oldest entry. -/
def QueueManager.get_next (q : QueueManager) : Option Nat × QueueManager :=
  match q.queue with
  | [] => (none, q)
  | u :: rest => (some u, { q with queue := rest })

/-- `QueueManager.get_queue_size`. -/
def QueueManager.get_queue_size (q : QueueManager) : Nat := q.queue.length

/-- `QueueManager.clear_queue`: empty the queue, return removed count. -/
def QueueManager.clear_queue (q : QueueManager) : Nat × QueueManager :=
  (q.queue.length, { q with queue := [] })

/-! ### Rate-limit governor (src/scheduler.py, `handle_rate_limit` /
`is_rate_limited`).  Time instants are modelled as `Nat` seconds;
`timedelta(minutes=5)` is 300 seconds. -/

def RATE_LIMIT_COOLDOWN : Nat := 5 * 60

/-- The module globals `rate_limit_detected` / `rate_limit_until`. -/
structure RateLimitState where
  rate_limit_detected : Bool
  rate_limit_until : Option Nat
  deriving DecidableEq

/-- Initial module state (scheduler.py lines 115–116). -/
def RateLimitState.init : RateLimitState := ⟨false, none⟩

/-- `handle_rate_limit()` observed at time `now`. -/
def handle_rate_limit (now : Nat) (_s : RateLimitState) : RateLimitState :=
  ⟨true, some (now + RATE_LIMIT_COOLDOWN)⟩

/-- `is_rate_limited()` queried at time `now`.  Returns the boolean result
and the (possibly reset) state; `none` models the `TypeError` Python would
raise if `rate_limit_detected` were set with `rate_limit_until = None`
(unreachable from the module's initial state). -/
def is_rate_limited (now : Nat) (s : RateLimitState) :
    Option (Bool × RateLimitState) :=
  if !s.rate_limit_detected then some (false, s)
  else
    match s.rate_limit_until with
    | none => none
    | some u =>
      if u ≤ now then some (false, ⟨false, none⟩)
      else some (true, s)

/-! ### Retry bookkeeping (src/scheduler.py, `retry_counts` dict). -/

def MAX_RETRY_COUNT : Nat := 3

/-- The `retry_counts` dict: `user_id → attempt count`; `none` = no entry. -/
def RetryMap := Nat → Option Nat

def RetryMap.empty : RetryMap := fun _ => none

/-- `increment_retry_count`: `retry_counts[u] = retry_counts.get(u, 0) + 1`,
returning the new count and the new map. -/
def increment_retry_count (u : Nat) (m : RetryMap) : Nat × RetryMap :=
  let n := (m u).getD 0 + 1
  (n, fun v => if v = u then some n else m v)

/-- `clear_retry_count`: `retry_counts.pop(u, None)`. -/
def clear_retry_count (u : Nat) (m : RetryMap) : RetryMap :=
  fun v => if v = u then none else m v

/-- `should_retry`: `retry_counts.get(u, 0) < MAX_RETRY_COUNT`. -/
def should_retry (u : Nat) (m : RetryMap) : Bool :=
  (m u).getD 0 < MAX_RETRY_COUNT

/-! ### The 429 branch of `process_single_user` (src/scheduler.py
lines 1176–1196 and 1239–1253).  On an explicit "too many requests"
response the code calls `handle_rate_limit()`, increments the retry
count, and either re-enqueues the subject (budget remains) or reports
it as exhausted and clears its entry. -/

/-- Combined engine state touched by the throttle branch. -/
structure EngineState where
  rl : RateLimitState
  retry : RetryMap
  qm : QueueManager

/-- Outcome of the 429 branch for one subject. -/
inductive ThrottleOutcome where
  | requeued
  | exhausted
  deriving DecidableEq

/-- The 429 handler of `process_single_user` (identical in the identity
and the profile lookup step): governor set, retry count incremented,
then bounded re-enqueue or terminal exhaustion report. -/
def process_throttle (now uid : Nat) (st : EngineState) :
    EngineState × ThrottleOutcome :=
  let rl' := handle_rate_limit now st.rl
  let (_, retry') := increment_retry_count uid st.retry
  if should_retry uid retry' then
    (⟨rl', retry', (st.qm.add_user uid).2⟩, .requeued)
  else
    (⟨rl', clear_retry_count uid retry', st.qm⟩, .exhausted)

/-- The success path of `process_single_user` (scheduler.py line 1318):
`clear_retry_count(user_id)` after both lookups succeed. -/
def process_success (uid : Nat) (st : EngineState) : EngineState :=
  { st with retry := clear_retry_count uid st.retry }

/-- States of the retry map reachable from module start through the
throttle / success events of `process_single_user`. -/
inductive RetryReachable : RetryMap → Prop where
  | init : RetryReachable RetryMap.empty
  | throttle (now uid : Nat) (st : EngineState) :
      RetryReachable st.retry →
      RetryReachable (process_throttle now uid st).1.retry
  | success (uid : Nat) (st : EngineState) :
      RetryReachable st.retry →
      RetryReachable (process_success uid st).retry

/-! ### Weekly auto-role check (src/scheduler.py, `auto_roles_checker`,
lines 902–927).  The firing condition is a pure predicate of the current
clock reading; the function keeps no last-fired marker of any kind. -/

/-- The condition guarding `execute_auto_roles` inside
`auto_roles_checker`: `now.weekday() == AUTO_EXECUTION_DAY and
now.hour == AUTO_EXECUTION_HOUR and 0 <= now.minute < 60`. -/
def auto_roles_check_fires (exec_day exec_hour : Nat)
    (weekday hour minute : Nat) : Bool :=
  weekday == exec_day && hour == exec_hour &&
    (decide (0 ≤ minute) && decide (minute < 60))

/-! ### Nickname creation (src/scheduler.py, `abbreviate_nation_name`
and `create_nickname`, lines 530–610). -/

def isUpperAscii (c : Char) : Bool := 'A' ≤ c && c ≤ 'Z'

/-- `abbreviate_nation_name`: split on `'_'`; with at least two parts,
join the uppercased first characters of the non-empty parts with `'.'`;
otherwise join the uppercase letters with `'.'`; otherwise take the
first five characters. -/
def abbreviate_nation_nameL (nation_name : List Char) : List Char :=
  let parts := splitOnChar '_' nation_name
  if parts.length ≤ 1 then
    let capitals := nation_name.filter isUpperAscii
    if !capitals.isEmpty then
      List.intercalate ['.'] (capitals.map fun c => [c])
    else nation_name.take 5
  else
    List.intercalate ['.']
      ((parts.filter (· ≠ [])).map fun p =>
        match p with
        | c :: _ => [c.toUpper]
        | [] => [])

def abbreviate_nation_name (nation_name : String) : String :=
  ⟨abbreviate_nation_nameL nation_name.data⟩

/-- `" ㅣ "` (scheduler.py `SEPARATOR`, three characters). -/
def nickSep : List Char := " ㅣ ".data

def MAX_NICK_LENGTH : Nat := 32

/-- Abbreviation choice in the overflow branch of `create_nickname`
(`"무소속" → "무"`, `"❌"` kept, otherwise `abbreviate_nation_name`). -/
def pickAbbrev (callsign : List Char) : List Char :=
  if callsign = "무소속".data then "무".data
  else if callsign = "❌".data then "❌".data
  else abbreviate_nation_nameL callsign

/-- Tail of `create_nickname` from `base_nickname = ...` on: plain form,
abbreviated form, further-truncated form, or the bare Minecraft id. -/
def nickFromCallsign (mc_id callsign : List Char) : List Char :=
  let base := mc_id ++ nickSep ++ callsign
  if base.length ≤ MAX_NICK_LENGTH then base
  else
    let abbr := pickAbbrev callsign
    let abbrNick := mc_id ++ nickSep ++ abbr
    if abbrNick.length ≤ MAX_NICK_LENGTH then abbrNick
    else
      let available : Int :=
        (MAX_NICK_LENGTH : Int) - mc_id.length - nickSep.length
      if 0 < available then mc_id ++ nickSep ++ abbr.take available.toNat
      else mc_id.take MAX_NICK_LENGTH

/-- The early return inside the `nation == BASE_NATION` branch of
`create_nickname`: keep the current callsign when the current nickname
already has the form `mc_id ㅣ callsign` and stays within the limit. -/
def baseNationEarly (mc_id : List Char)
    (current_nickname : Option (List Char)) : Option (List Char) :=
  match current_nickname with
  | some cn =>
    if cn ≠ [] ∧ containsSeq cn nickSep then
      let parts := splitSeq nickSep cn
      if 2 ≤ parts.length ∧ parts.getD 0 [] = mc_id then
        let new_nickname := mc_id ++ nickSep ++ parts.getD 1 []
        if new_nickname.length ≤ MAX_NICK_LENGTH then some new_nickname
        else none
      else none
    else none
  | none => none

/-- `create_nickname(mc_id, nation, current_nickname, town)` with the
module constant `BASE_NATION` passed explicitly. -/
def create_nicknameL (base_nation mc_id nation : List Char)
    (current_nickname town : Option (List Char)) : List Char :=
  if nation = "❌".data then
    nickFromCallsign mc_id
      (match town with
       | some t => if t ≠ [] ∧ t ≠ "❌".data then t else "❌".data
       | none => "❌".data)
  else if nation = "무소속".data then
    nickFromCallsign mc_id "무소속".data
  else if nation = base_nation then
    match baseNationEarly mc_id current_nickname with
    | some nick => nick
    | none => nickFromCallsign mc_id nation
  else nickFromCallsign mc_id nation

def create_nickname (base_nation mc_id nation : String)
    (current_nickname town : Option String) : String :=
  ⟨create_nicknameL base_nation.data mc_id.data nation.data
    (current_nickname.map String.data) (town.map String.data)⟩

/-! ### Nickname formatter (src/callsign_manager.py,
`CallsignManager.apply_format_to_nickname` and its inner helpers
`evaluate_expression`, `process_fallback`, `find_and_replace_brackets`,
lines 430–644). -/

/-- `x if x else None` on an optional string (Python truthiness). -/
def truthyStr (o : Option (List Char)) : Option (List Char) :=
  match o with
  | some v => if v = [] then none else some v
  | none => none

/-- `x if x and x not in ['', s1, s2] else None`. -/
def notInSentinels (o : Option (List Char)) (s1 s2 : List Char) :
    Option (List Char) :=
  match o with
  | some v => if v ≠ [] ∧ v ≠ s1 ∧ v ≠ s2 then some v else none
  | none => none

/-- The `variables` dict of `apply_format_to_nickname` (lines 453–460):
`CC` from the callsign, `NN`/`TT` filtered against `['', '❌', '무소속']`,
`MC`/`MF` filtered against `['', '❌', 'Unknown']`; `none` for unknown
names (`dict.get`). -/
def mkVars (mc_id nation town callsign : Option (List Char)) :
    List Char → Option (List Char) :=
  fun name =>
    if name = "CC".data then truthyStr callsign
    else if name = "NN".data then
      notInSentinels nation "❌".data "무소속".data
    else if name = "TT".data then
      notInSentinels town "❌".data "무소속".data
    else if name = "MC".data then
      notInSentinels mc_id "❌".data "Unknown".data
    else if name = "MF".data then
      notInSentinels mc_id "❌".data "Unknown".data
    else none

/-- One token of `evaluate_expression`'s scan: a `{VAR}` reference or the
inner text of a quoted literal. -/
inductive FTok where
  | varTok (name : List Char)
  | litTok (text : List Char)
  deriving DecidableEq

/-- Matching `"..."` / `'...'` from just after the opening quote: the text
up to the first closing `q` and the remainder after it. -/
def splitLit (q : Char) : List Char → Option (List Char × List Char)
  | [] => none
  | c :: cs =>
    if c = q then some ([], cs)
    else (splitLit q cs).map (fun p => (c :: p.1, p.2))

/-- A single match of the regex `\x7b([A-Z]+)\x7d|"([^"]*)"|'([^']*)'`
anchored at the head of the input, with the rest of the input after the
match. -/
def matchAtom : List Char → Option (FTok × List Char)
  | [] => none
  | c :: cs =>
    if c = '{' then
      let nm := cs.takeWhile isUpperAscii
      let d := cs.dropWhile isUpperAscii
      if nm.isEmpty then none
      else if d.head? = some '}' then some (.varTok nm, d.tail)
      else none
    else if c = '"' then (splitLit '"' cs).map (fun p => (.litTok p.1, p.2))
    else if c = '\'' then (splitLit '\'' cs).map (fun p => (.litTok p.1, p.2))
    else none

/-- `re.finditer` over the whole expression: left to right, skipping
characters where no alternative matches.  Fuelled; fuel `l.length` is
always sufficient. -/
def scanMatchesF : Nat → List Char → List FTok
  | 0, _ => []
  | _ + 1, [] => []
  | f + 1, c :: rest =>
    match matchAtom (c :: rest) with
    | some (t, r) => t :: scanMatchesF f r
    | none => scanMatchesF f rest

def scanMatches (l : List Char) : List FTok := scanMatchesF l.length l

/-- The match loop body of `evaluate_expression`: variables must be
truthy (else the whole expression fails), literal texts are kept as-is;
the parts are collected in order. -/
def evalTokens (vars : List Char → Option (List Char)) :
    List FTok → Option (List (List Char))
  | [] => some []
  | .varTok n :: ts =>
    match truthyStr (vars n) with
    | some v => (evalTokens vars ts).map (v :: ·)
    | none => none
  | .litTok s :: ts => (evalTokens vars ts).map (s :: ·)

/-- `evaluate_expression(expr)`: strip; a whole expression that starts and
ends with the same quote character is returned as one literal (its inner
slice); one that starts with `{` and ends with `}` is a single variable
lookup; anything else is scanned as a compound and fails (`None`) if any
referenced variable is falsy or if no token matched. -/
def evalExpr (vars : List Char → Option (List Char)) (expr0 : List Char) :
    Option (List Char) :=
  let expr := pyStrip expr0
  if (expr.head? = some '"' ∧ expr.getLast? = some '"') ∨
     (expr.head? = some '\'' ∧ expr.getLast? = some '\'') then
    some (pySlice1m1 expr)
  else if expr.head? = some '{' ∧ expr.getLast? = some '}' then
    truthyStr (vars (pySlice1m1 expr))
  else
    match evalTokens vars (scanMatches expr) with
    | none => none
    | some [] => none
    | some parts => some parts.flatten

/-- The quote-aware option splitter of `process_fallback`: `/` outside a
quote separates options, every other character (quotes included) is
accumulated; the trailing accumulator is appended if non-empty or if no
option was emitted. -/
def splitOptsAux : Option Char → List Char → List (List Char) →
    List Char → List (List Char)
  | _, cur, acc, [] => if cur ≠ [] ∨ acc = [] then acc ++ [cur] else acc
  | inq, cur, acc, c :: rest =>
    if c = '"' ∨ c = '\'' then
      match inq with
      | none => splitOptsAux (some c) (cur ++ [c]) acc rest
      | some q =>
        if q = c then splitOptsAux none (cur ++ [c]) acc rest
        else splitOptsAux (some q) (cur ++ [c]) acc rest
    else if c = '/' ∧ inq = none then splitOptsAux none [] (acc ++ [cur]) rest
    else splitOptsAux inq (cur ++ [c]) acc rest

/-- The option loop of `process_fallback`: first option whose stripped
evaluation is truthy; empty string if all fail. -/
def firstTruthyOpt (vars : List Char → Option (List Char)) :
    List (List Char) → List Char
  | [] => []
  | o :: os =>
    match evalExpr vars (pyStrip o) with
    | some v => if v ≠ [] then v else firstTruthyOpt vars os
    | none => firstTruthyOpt vars os

/-- `process_fallback` applied to the content between `[` and `]`. -/
def processFallback (vars : List Char → Option (List Char))
    (content : List Char) : List Char :=
  firstTruthyOpt vars (splitOptsAux none [] [] content)

/-- The inner bracket scan of `find_and_replace_brackets`: find the `]`
matching the `[` just consumed, tracking nesting depth and an inner quote
state (with `\\`-escape checks); returns the content (closing bracket
excluded) and the remainder after it, or `none` when unbalanced. -/
def scanBracket : Nat → Option Char → Char → List Char → List Char →
    Option (List Char × List Char)
  | _, _, _, _, [] => none
  | depth, inq, prev, acc, c :: rest =>
    if (c = '"' ∨ c = '\'') ∧ prev ≠ '\\' then
      let inq' := match inq with
        | none => some c
        | some q => if q = c then none else some q
      scanBracket depth inq' c (acc ++ [c]) rest
    else if c = '[' ∧ inq = none then
      scanBracket (depth + 1) inq c (acc ++ [c]) rest
    else if c = ']' ∧ inq = none then
      if depth = 1 then some (acc, rest)
      else scanBracket (depth - 1) inq c (acc ++ [c]) rest
    else scanBracket depth inq c (acc ++ [c]) rest

/-- `find_and_replace_brackets`: copy characters, tracking the top-level
quote state (with `\\`-escape checks); a `[` outside quotes opens a
bracket scan whose content is replaced by `process_fallback`; an
unbalanced `[` is copied literally.  Fuelled; fuel `l.length` is always
sufficient. -/
def farbAuxF (vars : List Char → Option (List Char)) :
    Nat → Option Char → Option Char → List Char → List Char
  | 0, _, _, _ => []
  | _ + 1, _, _, [] => []
  | f + 1, inq, prev, c :: rest =>
    if (c = '"' ∨ c = '\'') ∧ prev ≠ some '\\' then
      let inq' := match inq with
        | none => some c
        | some q => if q = c then none else some q
      c :: farbAuxF vars f inq' (some c) rest
    else if c = '[' ∧ inq = none then
      match scanBracket 1 none '[' [] rest with
      | some (content, rest') =>
        processFallback vars content ++ farbAuxF vars f inq (some ']') rest'
      | none => c :: farbAuxF vars f inq (some c) rest
    else c :: farbAuxF vars f inq (some c) rest

def farb (vars : List Char → Option (List Char)) (text : List Char) :
    List Char :=
  farbAuxF vars text.length none none text

/-- `variables.get('NN') or variables.get('TT') or ''` (legacy
`{NN/TT}` value). -/
def legacyNNTT (vars : List Char → Option (List Char)) : List Char :=
  match truthyStr (vars "NN".data) with
  | some v => v
  | none =>
    match truthyStr (vars "TT".data) with
    | some v => v
    | none => []

/-- Substitution order of the `variables` dict (Python dicts preserve
insertion order). -/
def VAR_ORDER : List (List Char) :=
  ["CC".data, "NN".data, "TT".data, "MC".data, "MF".data]

/-- Tail of `apply_format_to_nickname`: bracket groups, the legacy
`{NN/TT}` variable, remaining plain variables, whitespace collapse, and
the 32-character truncation (a no-op on shorter strings, hence
unconditional here). -/
def applyFormatL (vars : List Char → Option (List Char)) (fmt : List Char) :
    List Char :=
  let r1 := farb vars fmt
  let r2 :=
    if containsSeq r1 "{NN/TT}".data then
      replaceAll "{NN/TT}".data (legacyNNTT vars) r1
    else r1
  let r3 := VAR_ORDER.foldl
    (fun acc name =>
      replaceAll ('{' :: name ++ ['}']) ((vars name).getD []) acc) r2
  (collapseWs r3).take 32

/-- `CallsignManager.apply_format_to_nickname(format_string, mc_id,
nation, town, callsign)`. -/
def apply_format_to_nickname (format_string : String)
    (mc_id nation town callsign : Option String) : String :=
  ⟨applyFormatL
    (mkVars (mc_id.map String.data) (nation.map String.data)
      (town.map String.data) (callsign.map String.data))
    format_string.data⟩

/-! ### Specification-side semantics of fallback groups

The following definitions follow the words of the specification
(§4.5 of spec.md), to be compared with the embedded
`process_fallback` / `evaluate_expression`: an expression is a flat
concatenation of variable references and quoted literals; it fails as a
whole if any referenced variable is empty or unset, and otherwise
evaluates to the concatenation; a group takes the first expression with
a non-empty value and yields the empty string when all fail. -/

/-- A flat atom of the template grammar: `{NAME}` or a quoted literal. -/
inductive SpecAtom where
  | varRef (name : List Char)
  | litStr (q : Char) (text : List Char)
  deriving DecidableEq

/-- The concrete text of one atom. -/
def renderAtom : SpecAtom → List Char
  | .varRef n => '{' :: n ++ ['}']
  | .litStr q t => q :: t ++ [q]

/-- The concrete text of one expression (a concatenation of atoms). -/
def renderExpr (e : List SpecAtom) : List Char :=
  (e.map renderAtom).flatten

/-- The concrete content of a fallback group: expressions joined by `/`. -/
def renderGroup : List (List SpecAtom) → List Char
  | [] => []
  | [e] => renderExpr e
  | e :: es => renderExpr e ++ '/' :: renderGroup es

/-- Specification semantics of one expression: the concatenation of the
atom values, failing as a whole when any referenced variable is empty or
unset. -/
def specEvalExpr (vars : List Char → Option (List Char)) :
    List SpecAtom → Option (List Char)
  | [] => some []
  | .varRef n :: as =>
    match vars n with
    | some v => if v = [] then none else (specEvalExpr vars as).map (v ++ ·)
    | none => none
  | .litStr _ t :: as => (specEvalExpr vars as).map (t ++ ·)

/-- Specification semantics of a group: first expression whose evaluation
is non-empty, else the empty string. -/
def specFallback (vars : List Char → Option (List Char)) :
    List (List SpecAtom) → List Char
  | [] => []
  | e :: es =>
    match specEvalExpr vars e with
    | some v => if v ≠ [] then v else specFallback vars es
    | none => specFallback vars es

/-- Well-formed atom: non-empty all-uppercase variable names; literals
delimited by one of the two quote characters, with no quote character in
the literal text. -/
def wfAtomB : SpecAtom → Bool
  | .varRef n => !n.isEmpty && n.all isUpperAscii
  | .litStr q t =>
    (q = '"' || q = '\'') && t.all (fun c => !(c = '"') && !(c = '\''))

/-- First character of an atom's text. -/
def headCharA : SpecAtom → Char
  | .varRef _ => '{'
  | .litStr q _ => q

/-- Last character of an atom's text. -/
def lastCharA : SpecAtom → Char
  | .varRef _ => '}'
  | .litStr q _ => q

/-- The scanner quirk guard: an expression of two or more atoms whose
first and last atoms are literals with the same quote character is
mis-read by `evaluate_expression` as one literal, and one whose first and
last atoms are both variable references is mis-read as one variable
name.  -/
def sameQuoteEndsB (e : List SpecAtom) : Bool :=
  match e.head?, e.getLast? with
  | some (.litStr q _), some (.litStr q' _) => q = q'
  | _, _ => false

def varEndsB (e : List SpecAtom) : Bool :=
  match e.head?, e.getLast? with
  | some (.varRef _), some (.varRef _) => true
  | _, _ => false

def quirkFreeB (e : List SpecAtom) : Bool :=
  e.length == 1 || (!sameQuoteEndsB e && !varEndsB e)

/-- The token `evaluate_expression`'s scan produces for one atom. -/
def tokenOf : SpecAtom → FTok
  | .varRef n => .varTok n
  | .litStr _ t => .litTok t

/-! ### Helper lemmas -/

theorem isUpperAscii_not_quote {c : Char} (h : isUpperAscii c = true) :
    c ≠ '"' ∧ c ≠ '\'' ∧ c ≠ '/' ∧ isPySpace c = false := by
  refine ⟨?_, ?_, ?_, ?_⟩
  · intro he; subst he; exact absurd h (by decide)
  · intro he; subst he; exact absurd h (by decide)
  · intro he; subst he; exact absurd h (by decide)
  · cases hps : isPySpace c
    · rfl
    · exfalso
      simp only [isPySpace, Bool.or_eq_true, decide_eq_true_eq] at hps
      rcases hps with ((((h1 | h1) | h1) | h1) | h1) | h1 <;>
        (subst h1; exact absurd h (by decide))

theorem pyStrip_eq_self {l : List Char}
    (h1 : ∀ c, l.head? = some c → isPySpace c = false)
    (h2 : ∀ c, l.getLast? = some c → isPySpace c = false) :
    pyStrip l = l := by
  unfold pyStrip
  cases l with
  | nil => rfl
  | cons a m =>
    have ha : isPySpace a = false := h1 a rfl
    rw [List.dropWhile_cons_of_neg (by simp [ha])]
    cases hrev : (a :: m).reverse with
    | nil => simp at hrev
    | cons b r =>
      have hb : (a :: m).getLast? = some b := by
        rw [← List.head?_reverse, hrev]; rfl
      rw [List.dropWhile_cons_of_neg (by simp [h2 b hb]), ← hrev,
        List.reverse_reverse]

theorem splitLit_render (q : Char) (t rest : List Char)
    (ht : ∀ c ∈ t, ¬ c = q) :
    splitLit q (t ++ q :: rest) = some (t, rest) := by
  induction t with
  | nil => simp [splitLit]
  | cons c cs ih =>
    have hc : ¬ c = q := ht c (by simp)
    rw [List.cons_append, splitLit, if_neg hc,
      ih (fun d hd => ht d (by simp [hd]))]
    rfl

theorem splitLit_sub {q : Char} : ∀ {l t r : List Char},
    splitLit q l = some (t, r) → l = t ++ q :: r := by
  intro l
  induction l with
  | nil => intro t r h; cases h
  | cons c cs ih =>
    intro t r h
    by_cases hc : c = q
    · subst hc
      rw [splitLit, if_pos rfl] at h
      cases h
      rfl
    · rw [splitLit, if_neg hc] at h
      cases hs : splitLit q cs with
      | none => rw [hs] at h; cases h
      | some p =>
        obtain ⟨t', r'⟩ := p
        rw [hs] at h
        cases h
        rw [List.cons_append]
        rw [← ih hs]

theorem dropWhile_length_le (p : Char → Bool) (l : List Char) :
    (l.dropWhile p).length ≤ l.length := by
  induction l with
  | nil => simp
  | cons c cs ih =>
    by_cases h : p c
    · rw [List.dropWhile_cons_of_pos h]
      exact Nat.le_trans ih (by simp)
    · rw [List.dropWhile_cons_of_neg h]

theorem matchAtom_lt : ∀ {l : List Char} {t : FTok} {r : List Char},
    matchAtom l = some (t, r) → r.length < l.length := by
  intro l t r h
  match l with
  | [] => cases h
  | c :: cs =>
    rw [matchAtom] at h
    by_cases h1 : c = '{'
    · rw [if_pos h1] at h
      simp only at h
      by_cases h2 : (cs.takeWhile isUpperAscii).isEmpty
      · rw [if_pos h2] at h; cases h
      · rw [if_neg h2] at h
        by_cases h3 : (cs.dropWhile isUpperAscii).head? = some '}'
        · rw [if_pos h3] at h
          cases h
          have hd := dropWhile_length_le isUpperAscii cs
          have : (cs.dropWhile isUpperAscii).tail.length ≤
              (cs.dropWhile isUpperAscii).length - 1 := by
            simp [List.length_tail]
          have hne : cs.dropWhile isUpperAscii ≠ [] := by
            intro he; rw [he] at h3; cases h3
          have : 1 ≤ (cs.dropWhile isUpperAscii).length :=
            List.length_pos.mpr hne
          simp only [List.length_cons, List.length_tail]
          omega
        · rw [if_neg h3] at h; cases h
    · rw [if_neg h1] at h
      by_cases h2 : c = '"'
      · rw [if_pos h2] at h
        cases hs : splitLit '"' cs with
        | none => rw [hs] at h; cases h
        | some p =>
          obtain ⟨t', r'⟩ := p
          rw [hs] at h
          cases h
          have := splitLit_sub hs
          subst this
          simp
          omega
      · rw [if_neg h2] at h
        by_cases h3 : c = '\''
        · rw [if_pos h3] at h
          cases hs : splitLit '\'' cs with
          | none => rw [hs] at h; cases h
          | some p =>
            obtain ⟨t', r'⟩ := p
            rw [hs] at h
            cases h
            have := splitLit_sub hs
            subst this
            simp
            omega
        · rw [if_neg h3] at h; cases h

theorem scanMatchesF_nil : ∀ f, scanMatchesF f [] = [] := by
  intro f; cases f <;> rfl

theorem scanMatchesF_congr : ∀ (f g : Nat) (l : List Char),
    l.length ≤ f → l.length ≤ g → scanMatchesF f l = scanMatchesF g l := by
  intro f
  induction f with
  | zero =>
    intro g l hf _
    have hl : l = [] := List.eq_nil_of_length_eq_zero (Nat.le_zero.mp hf)
    subst hl
    rw [scanMatchesF_nil, scanMatchesF_nil]
  | succ f ih =>
    intro g l hf hg
    cases g with
    | zero =>
      have hl : l = [] := List.eq_nil_of_length_eq_zero (Nat.le_zero.mp hg)
      subst hl
      rw [scanMatchesF_nil, scanMatchesF_nil]
    | succ g =>
      cases l with
      | nil => rw [scanMatchesF_nil, scanMatchesF_nil]
      | cons c rest =>
        simp only [scanMatchesF]
        simp only [List.length_cons] at hf hg
        rcases hm : matchAtom (c :: rest) with _ | ⟨t, r⟩
        · show scanMatchesF f rest = scanMatchesF g rest
          exact ih g rest (by omega) (by omega)
        · have hr : r.length < rest.length + 1 := matchAtom_lt hm
          show t :: scanMatchesF f r = t :: scanMatchesF g r
          exact congrArg _ (ih g r (by omega) (by omega))

theorem scanMatches_cons_match {l : List Char} {t : FTok} {r : List Char}
    (h : matchAtom l = some (t, r)) : scanMatches l = t :: scanMatches r := by
  match l with
  | [] => cases h
  | c :: rest =>
    have hr : r.length < rest.length + 1 := matchAtom_lt h
    unfold scanMatches
    simp only [List.length_cons, scanMatchesF, h]
    congr 1
    exact scanMatchesF_congr rest.length r.length r (by omega) (Nat.le_refl _)

theorem renderExpr_cons (a : SpecAtom) (as : List SpecAtom) :
    renderExpr (a :: as) = renderAtom a ++ renderExpr as := by
  simp [renderExpr]

theorem matchAtom_renderAtom (a : SpecAtom) (rest : List Char)
    (ha : wfAtomB a = true) :
    matchAtom (renderAtom a ++ rest) = some (tokenOf a, rest) := by
  cases a with
  | varRef n =>
    simp only [wfAtomB, Bool.and_eq_true, Bool.not_eq_true',
      List.all_eq_true] at ha
    obtain ⟨hne, hall⟩ := ha
    have hshape : renderAtom (.varRef n) ++ rest = '{' :: (n ++ '}' :: rest) := by
      simp [renderAtom]
    rw [hshape, matchAtom, if_pos rfl]
    simp only
    rw [List.takeWhile_append_of_pos (by exact fun a ha => hall a ha),
      List.dropWhile_append_of_pos (by exact fun a ha => hall a ha),
      List.takeWhile_cons_of_neg (by decide),
      List.dropWhile_cons_of_neg (by decide)]
    simp [hne, tokenOf]
  | litStr q t =>
    simp only [wfAtomB, Bool.and_eq_true, Bool.or_eq_true,
      List.all_eq_true, decide_eq_true_eq] at ha
    obtain ⟨hq, ht⟩ := ha
    have ht' : ∀ c ∈ t, ¬ c = '"' ∧ ¬ c = '\'' := by
      intro c hc
      have := ht c hc
      simp only [Bool.and_eq_true, Bool.not_eq_true', decide_eq_false_iff_not]
        at this
      exact this
    rcases hq with rfl | rfl
    · have hshape : renderAtom (.litStr '"' t) ++ rest =
          '"' :: (t ++ '"' :: rest) := by simp [renderAtom]
      rw [hshape, matchAtom, if_neg (by decide), if_pos rfl,
        splitLit_render '"' t rest (fun c hc => (ht' c hc).1)]
      rfl
    · have hshape : renderAtom (.litStr '\'' t) ++ rest =
          '\'' :: (t ++ '\'' :: rest) := by simp [renderAtom]
      rw [hshape, matchAtom, if_neg (by decide), if_neg (by decide),
        if_pos rfl, splitLit_render '\'' t rest (fun c hc => (ht' c hc).2)]
      rfl

theorem scanMatches_renderExpr (e : List SpecAtom)
    (hwf : ∀ a ∈ e, wfAtomB a = true) :
    scanMatches (renderExpr e) = e.map tokenOf := by
  induction e with
  | nil => rfl
  | cons a as ih =>
    rw [renderExpr_cons,
      scanMatches_cons_match (matchAtom_renderAtom a (renderExpr as)
        (hwf a (by simp))),
      ih (fun b hb => hwf b (by simp [hb]))]
    rfl

theorem evalTokens_length (vars : List Char → Option (List Char)) :
    ∀ (ts : List FTok) (ps : List (List Char)),
      evalTokens vars ts = some ps → ps.length = ts.length := by
  intro ts
  induction ts with
  | nil => intro ps h; cases h; rfl
  | cons t ts ih =>
    intro ps h
    cases t with
    | varTok n =>
      simp only [evalTokens] at h
      cases hv : truthyStr (vars n) with
      | none => rw [hv] at h; cases h
      | some v =>
        rw [hv] at h
        cases he : evalTokens vars ts with
        | none => rw [he] at h; cases h
        | some ps' =>
          rw [he] at h
          cases h
          simp [ih ps' he]
    | litTok s =>
      simp only [evalTokens] at h
      cases he : evalTokens vars ts with
      | none => rw [he] at h; cases h
      | some ps' =>
        rw [he] at h
        cases h
        simp [ih ps' he]

theorem evalTokens_spec (vars : List Char → Option (List Char)) :
    ∀ e : List SpecAtom,
      (evalTokens vars (e.map tokenOf)).map List.flatten =
        specEvalExpr vars e := by
  intro e
  induction e with
  | nil => rfl
  | cons a as ih =>
    cases a with
    | varRef n =>
      show (evalTokens vars (.varTok n :: as.map tokenOf)).map List.flatten = _
      cases hv : vars n with
      | none => simp [evalTokens, truthyStr, specEvalExpr, hv]
      | some v =>
        by_cases hveq : v = []
        · subst hveq
          simp [evalTokens, truthyStr, specEvalExpr, hv]
        · simp only [evalTokens, truthyStr, hv, if_neg hveq, specEvalExpr,
            Option.map_map]
          rw [← ih, Option.map_map]
          have hcomp : (List.flatten ∘ fun x => v :: x) =
              ((fun x => v ++ x) ∘ List.flatten) := by
            funext p; simp
          rw [hcomp]
    | litStr q t =>
      show (evalTokens vars (.litTok t :: as.map tokenOf)).map List.flatten = _
      simp only [evalTokens, specEvalExpr, Option.map_map]
      rw [← ih, Option.map_map]
      have hcomp : (List.flatten ∘ fun x => t :: x) =
          ((fun x => t ++ x) ∘ List.flatten) := by
        funext p; simp
      rw [hcomp]

theorem renderAtom_ne_nil (a : SpecAtom) : renderAtom a ≠ [] := by
  cases a <;> simp [renderAtom]

theorem renderExpr_ne_nil (e : List SpecAtom) (h : e ≠ []) :
    renderExpr e ≠ [] := by
  cases e with
  | nil => exact absurd rfl h
  | cons a as =>
    rw [renderExpr_cons]
    simp [renderAtom_ne_nil a]

theorem renderExpr_head (a : SpecAtom) (as : List SpecAtom) :
    (renderExpr (a :: as)).head? = some (headCharA a) := by
  cases a <;> simp [renderExpr_cons, renderAtom, headCharA]

theorem renderAtom_getLast (a : SpecAtom) :
    (renderAtom a).getLast? = some (lastCharA a) := by
  cases a with
  | varRef n =>
    have hs : renderAtom (.varRef n) = ('{' :: n) ++ ['}'] := by
      simp [renderAtom]
    rw [hs, List.getLast?_concat]
    rfl
  | litStr q t =>
    have hs : renderAtom (.litStr q t) = (q :: t) ++ [q] := by
      simp [renderAtom]
    rw [hs, List.getLast?_concat]
    rfl

theorem renderExpr_getLast : ∀ (e : List SpecAtom), e ≠ [] →
    ∃ a, e.getLast? = some a ∧
      (renderExpr e).getLast? = some (lastCharA a) := by
  intro e
  induction e with
  | nil => intro h; cases h rfl
  | cons b bs ih =>
    intro _
    cases bs with
    | nil =>
      refine ⟨b, rfl, ?_⟩
      have hs : renderExpr [b] = renderAtom b := by simp [renderExpr]
      rw [hs]
      exact renderAtom_getLast b
    | cons c cs =>
      obtain ⟨a, ha1, ha2⟩ := ih (by simp)
      refine ⟨a, ?_, ?_⟩
      · rw [List.getLast?_cons_cons]
        exact ha1
      · rw [renderExpr_cons,
          List.getLast?_append_of_ne_nil _ (renderExpr_ne_nil _ (by simp))]
        exact ha2

theorem headCharA_cases (a : SpecAtom) (ha : wfAtomB a = true) :
    headCharA a = '{' ∨ headCharA a = '"' ∨ headCharA a = '\'' := by
  cases a with
  | varRef n => exact Or.inl rfl
  | litStr q t =>
    simp only [wfAtomB, Bool.and_eq_true, Bool.or_eq_true,
      decide_eq_true_eq] at ha
    rcases ha.1 with rfl | rfl
    · exact Or.inr (Or.inl rfl)
    · exact Or.inr (Or.inr rfl)

theorem lastCharA_cases (a : SpecAtom) (ha : wfAtomB a = true) :
    lastCharA a = '}' ∨ lastCharA a = '"' ∨ lastCharA a = '\'' := by
  cases a with
  | varRef n => exact Or.inl rfl
  | litStr q t =>
    simp only [wfAtomB, Bool.and_eq_true, Bool.or_eq_true,
      decide_eq_true_eq] at ha
    rcases ha.1 with rfl | rfl
    · exact Or.inr (Or.inl rfl)
    · exact Or.inr (Or.inr rfl)

/-- `evaluate_expression` agrees with the specification's expression
semantics on every rendered well-formed expression that avoids the two
end-of-expression scanner quirks. -/
theorem evalExpr_renderExpr (vars : List Char → Option (List Char))
    (e : List SpecAtom) (hne : e ≠ [])
    (hwf : ∀ a ∈ e, wfAtomB a = true) (hqf : quirkFreeB e = true) :
    evalExpr vars (renderExpr e) = specEvalExpr vars e := by
  match e, hne with
  | a0 :: as, _ =>
  have hwf0 : wfAtomB a0 = true := hwf a0 (by simp)
  have hhead := renderExpr_head a0 as
  obtain ⟨alast, hL1, hL2⟩ := renderExpr_getLast (a0 :: as) (by simp)
  have hwfL : wfAtomB alast = true :=
    hwf alast (List.mem_of_getLast?_eq_some hL1)
  have hh := headCharA_cases a0 hwf0
  have hl := lastCharA_cases alast hwfL
  have hstrip : pyStrip (renderExpr (a0 :: as)) = renderExpr (a0 :: as) := by
    apply pyStrip_eq_self
    · intro c hc
      rw [hhead] at hc
      injection hc with hc
      subst hc
      rcases hh with h | h | h <;> (rw [h]; decide)
    · intro c hc
      rw [hL2] at hc
      injection hc with hc
      subst hc
      rcases hl with h | h | h <;> (rw [h]; decide)
  simp only [evalExpr]
  rw [hstrip]
  cases as with
  | nil =>
    have halast : alast = a0 := by
      simp only [List.getLast?_singleton] at hL1
      injection hL1 with h
      exact h.symm
    subst halast
    cases alast with
    | varRef n =>
      rw [if_neg (by
        rw [hhead, hL2]
        simp [headCharA, lastCharA]),
        if_pos (by rw [hhead, hL2]; exact ⟨rfl, rfl⟩)]
      have hslice : pySlice1m1 (renderExpr [.varRef n]) = n := by
        simp [renderExpr, renderAtom, pySlice1m1]
      rw [hslice]
      cases hv : vars n with
      | none => simp [truthyStr, specEvalExpr, hv]
      | some v =>
        by_cases hveq : v = [] <;>
          simp [truthyStr, specEvalExpr, hv, hveq]
    | litStr q t =>
      have hq : q = '"' ∨ q = '\'' := by
        simp only [wfAtomB, Bool.and_eq_true, Bool.or_eq_true,
          decide_eq_true_eq] at hwf0
        exact hwf0.1
      have hslice : pySlice1m1 (renderExpr [.litStr q t]) = t := by
        simp [renderExpr, renderAtom, pySlice1m1]
      rcases hq with rfl | rfl
      · rw [if_pos (by rw [hhead, hL2]; exact Or.inl ⟨rfl, rfl⟩), hslice]
        simp [specEvalExpr]
      · rw [if_pos (by rw [hhead, hL2]; exact Or.inr ⟨rfl, rfl⟩), hslice]
        simp [specEvalExpr]
  | cons b bs =>
    have hqf' : sameQuoteEndsB (a0 :: b :: bs) = false ∧
        varEndsB (a0 :: b :: bs) = false := by
      have hlen : ((a0 :: b :: bs).length == 1) = false := by simp
      simp only [quirkFreeB, hlen, Bool.false_or, Bool.and_eq_true,
        Bool.not_eq_true'] at hqf
      exact hqf
    obtain ⟨hsq, hve⟩ := hqf'
    have hc1 : ¬ (((renderExpr (a0 :: b :: bs)).head? = some '"' ∧
          (renderExpr (a0 :: b :: bs)).getLast? = some '"') ∨
        ((renderExpr (a0 :: b :: bs)).head? = some '\'' ∧
          (renderExpr (a0 :: b :: bs)).getLast? = some '\'')) := by
      intro hcon
      have hfalse : sameQuoteEndsB (a0 :: b :: bs) = true := by
        rcases hcon with ⟨h1, h2⟩ | ⟨h1, h2⟩ <;>
        · rw [hhead] at h1
          injection h1 with h1
          rw [hL2] at h2
          injection h2 with h2
          cases a0 with
          | varRef n => simp [headCharA] at h1
          | litStr q0 t0 =>
            cases halast : alast with
            | varRef n' =>
              rw [halast] at h2
              simp [lastCharA] at h2
            | litStr q' t' =>
              rw [halast] at h2
              rw [halast] at hL1
              simp only [sameQuoteEndsB, List.head?_cons, hL1]
              simp only [headCharA] at h1
              simp only [lastCharA] at h2
              rw [h1, h2]
              simp
      rw [hfalse] at hsq
      cases hsq
    have hc2 : ¬ ((renderExpr (a0 :: b :: bs)).head? = some '{' ∧
        (renderExpr (a0 :: b :: bs)).getLast? = some '}') := by
      intro hcon
      obtain ⟨h1, h2⟩ := hcon
      rw [hhead] at h1
      injection h1 with h1
      rw [hL2] at h2
      injection h2 with h2
      have hfalse : varEndsB (a0 :: b :: bs) = true := by
        cases a0 with
        | litStr q0 t0 =>
          simp only [headCharA] at h1
          subst h1
          simp only [wfAtomB, Bool.and_eq_true, Bool.or_eq_true,
            decide_eq_true_eq] at hwf0
          rcases hwf0.1 with h | h <;> cases h
        | varRef n =>
          cases halast : alast with
          | litStr q' t' =>
            rw [halast] at h2
            simp only [lastCharA] at h2
            subst h2
            rw [halast] at hwfL
            simp only [wfAtomB, Bool.and_eq_true, Bool.or_eq_true,
              decide_eq_true_eq] at hwfL
            rcases hwfL.1 with h | h <;> cases h
          | varRef n' =>
            rw [halast] at hL1
            simp [varEndsB, hL1]
      rw [hfalse] at hve
      cases hve
    rw [if_neg hc1, if_neg hc2, scanMatches_renderExpr _ hwf]
    have hspec := evalTokens_spec vars (a0 :: b :: bs)
    cases het : evalTokens vars ((a0 :: b :: bs).map tokenOf) with
    | none =>
      rw [het] at hspec
      simp only [Option.map_none'] at hspec
      exact hspec
    | some parts =>
      have hplen := evalTokens_length vars _ parts het
      cases parts with
      | nil => simp at hplen
      | cons p ps =>
        rw [het] at hspec
        simp only [Option.map_some'] at hspec
        exact hspec

theorem renderExpr_pyStrip (e : List SpecAtom) (hne : e ≠ [])
    (hwf : ∀ a ∈ e, wfAtomB a = true) :
    pyStrip (renderExpr e) = renderExpr e := by
  match e, hne with
  | a0 :: as, _ =>
  have hwf0 : wfAtomB a0 = true := hwf a0 (by simp)
  have hhead := renderExpr_head a0 as
  obtain ⟨alast, hL1, hL2⟩ := renderExpr_getLast (a0 :: as) (by simp)
  have hwfL : wfAtomB alast = true :=
    hwf alast (List.mem_of_getLast?_eq_some hL1)
  apply pyStrip_eq_self
  · intro c hc
    rw [hhead] at hc
    injection hc with hc
    subst hc
    rcases headCharA_cases a0 hwf0 with h | h | h <;> (rw [h]; decide)
  · intro c hc
    rw [hL2] at hc
    injection hc with hc
    subst hc
    rcases lastCharA_cases alast hwfL with h | h | h <;> (rw [h]; decide)

theorem splitOpts_quote_open (c : Char) (hc : c = '"' ∨ c = '\'')
    (cur : List Char) (acc : List (List Char)) (rest : List Char) :
    splitOptsAux none cur acc (c :: rest) =
      splitOptsAux (some c) (cur ++ [c]) acc rest := by
  simp only [splitOptsAux]
  rw [if_pos hc]

theorem splitOpts_quote_close (q : Char) (hq : q = '"' ∨ q = '\'')
    (cur : List Char) (acc : List (List Char)) (rest : List Char) :
    splitOptsAux (some q) cur acc (q :: rest) =
      splitOptsAux none (cur ++ [q]) acc rest := by
  simp only [splitOptsAux]
  rw [if_pos hq]
  simp

theorem splitOpts_slash (cur : List Char) (acc : List (List Char))
    (rest : List Char) :
    splitOptsAux none cur acc ('/' :: rest) =
      splitOptsAux none [] (acc ++ [cur]) rest := by
  simp only [splitOptsAux]
  rw [if_neg (by decide), if_pos (by simp)]

theorem splitOpts_append_plain :
    ∀ (t cur : List Char) (acc : List (List Char)) (rest : List Char),
      (∀ c ∈ t, ¬ c = '"' ∧ ¬ c = '\'' ∧ ¬ c = '/') →
      splitOptsAux none cur acc (t ++ rest) =
        splitOptsAux none (cur ++ t) acc rest := by
  intro t
  induction t with
  | nil => intro cur acc rest _; simp
  | cons c cs ih =>
    intro cur acc rest h
    obtain ⟨h1, h2, h3⟩ := h c (by simp)
    rw [List.cons_append]
    simp only [splitOptsAux]
    rw [if_neg (by simp [h1, h2]), if_neg (by simp [h3]),
      ih _ _ _ (fun d hd => h d (by simp [hd]))]
    simp

theorem splitOpts_in_quote :
    ∀ (t : List Char) (q : Char) (cur : List Char) (acc : List (List Char))
      (rest : List Char),
      (∀ c ∈ t, ¬ c = '"' ∧ ¬ c = '\'') →
      splitOptsAux (some q) cur acc (t ++ rest) =
        splitOptsAux (some q) (cur ++ t) acc rest := by
  intro t
  induction t with
  | nil => intro q cur acc rest _; simp
  | cons c cs ih =>
    intro q cur acc rest h
    obtain ⟨h1, h2⟩ := h c (by simp)
    rw [List.cons_append]
    simp only [splitOptsAux]
    rw [if_neg (by simp [h1, h2]), if_neg (by simp),
      ih _ _ _ _ (fun d hd => h d (by simp [hd]))]
    simp

theorem splitOpts_consume_atom (a : SpecAtom) (ha : wfAtomB a = true) :
    ∀ (cur : List Char) (acc : List (List Char)) (rest : List Char),
      splitOptsAux none cur acc (renderAtom a ++ rest) =
        splitOptsAux none (cur ++ renderAtom a) acc rest := by
  cases a with
  | varRef n =>
    intro cur acc rest
    apply splitOpts_append_plain
    intro c hc
    simp only [renderAtom, List.mem_cons, List.mem_append,
      List.mem_singleton] at hc
    simp only [wfAtomB, Bool.and_eq_true, Bool.not_eq_true',
      List.all_eq_true] at ha
    rcases hc with (rfl | hc) | (rfl | hemp)
    · exact ⟨by decide, by decide, by decide⟩
    · obtain ⟨hq1, hq2, hq3, _⟩ := isUpperAscii_not_quote (ha.2 c hc)
      exact ⟨hq1, hq2, hq3⟩
    · exact ⟨by decide, by decide, by decide⟩
    · cases hemp
  | litStr q t =>
    intro cur acc rest
    simp only [wfAtomB, Bool.and_eq_true, Bool.or_eq_true,
      List.all_eq_true, decide_eq_true_eq] at ha
    obtain ⟨hq, ht⟩ := ha
    have ht' : ∀ c ∈ t, ¬ c = '"' ∧ ¬ c = '\'' := by
      intro c hc
      have := ht c hc
      simp only [Bool.and_eq_true, Bool.not_eq_true',
        decide_eq_false_iff_not] at this
      exact this
    have hshape : renderAtom (.litStr q t) ++ rest =
        q :: (t ++ (q :: rest)) := by simp [renderAtom]
    rw [hshape, splitOpts_quote_open q hq,
      splitOpts_in_quote t q _ _ _ ht',
      splitOpts_quote_close q hq]
    simp [renderAtom]

theorem splitOpts_consume_expr (e : List SpecAtom)
    (he : ∀ a ∈ e, wfAtomB a = true) :
    ∀ (cur : List Char) (acc : List (List Char)) (rest : List Char),
      splitOptsAux none cur acc (renderExpr e ++ rest) =
        splitOptsAux none (cur ++ renderExpr e) acc rest := by
  induction e with
  | nil => intro cur acc rest; simp [renderExpr]
  | cons a as ih =>
    intro cur acc rest
    rw [renderExpr_cons, List.append_assoc,
      splitOpts_consume_atom a (he a (by simp)),
      ih (fun b hb => he b (by simp [hb]))]
    simp

theorem splitOpts_group :
    ∀ (es : List (List SpecAtom)) (acc : List (List Char)), es ≠ [] →
      (∀ e ∈ es, e ≠ [] ∧ ∀ a ∈ e, wfAtomB a = true) →
      splitOptsAux none [] acc (renderGroup es) = acc ++ es.map renderExpr := by
  intro es
  induction es with
  | nil => intro acc h; cases h rfl
  | cons e es' ih =>
    intro acc _ hwf
    cases es' with
    | nil =>
      show splitOptsAux none [] acc (renderExpr e) = acc ++ [renderExpr e]
      have hc := splitOpts_consume_expr e (hwf e (by simp)).2 [] acc []
      rw [List.append_nil] at hc
      rw [hc]
      simp only [splitOptsAux, List.nil_append]
      rw [if_pos (Or.inl (renderExpr_ne_nil e (hwf e (by simp)).1))]
    | cons e2 es'' =>
      show splitOptsAux none [] acc
          (renderExpr e ++ '/' :: renderGroup (e2 :: es'')) = _
      rw [splitOpts_consume_expr e (hwf e (by simp)).2 [] acc _,
        List.nil_append, splitOpts_slash,
        ih (acc ++ [renderExpr e]) (by simp)
          (fun x hx => hwf x (by simp [hx]))]
      simp

theorem firstTruthy_renders (vars : List Char → Option (List Char)) :
    ∀ es : List (List SpecAtom),
      (∀ e ∈ es, e ≠ [] ∧ (∀ a ∈ e, wfAtomB a = true) ∧
        quirkFreeB e = true) →
      firstTruthyOpt vars (es.map renderExpr) = specFallback vars es := by
  intro es
  induction es with
  | nil => intro _; rfl
  | cons e es' ih =>
    intro hwf
    obtain ⟨hne, hwfe, hqf⟩ := hwf e (by simp)
    show firstTruthyOpt vars (renderExpr e :: es'.map renderExpr) = _
    simp only [firstTruthyOpt]
    rw [renderExpr_pyStrip e hne hwfe,
      evalExpr_renderExpr vars e hne hwfe hqf]
    simp only [specFallback]
    cases hv : specEvalExpr vars e with
    | none => exact ih (fun x hx => hwf x (by simp [hx]))
    | some v =>
      by_cases hveq : v = []
      · subst hveq
        simp only [ne_eq, not_true_eq_false, if_neg, reduceIte]
        exact ih (fun x hx => hwf x (by simp [hx]))
      · simp [hveq]

theorem farbAuxF_nil (vars : List Char → Option (List Char))
    (f : Nat) (inq prev : Option Char) : farbAuxF vars f inq prev [] = [] := by
  cases f <;> rfl

theorem farbAux_in_quote (vars : List Char → Option (List Char)) (q : Char)
    (hq : q = '"' ∨ q = '\'') :
    ∀ (s : List Char) (f : Nat) (prev : Option Char),
      (∀ c ∈ s, c ≠ '"' ∧ c ≠ '\'' ∧ c ≠ '\\') →
      prev ≠ some '\\' →
      s.length + 1 ≤ f →
      farbAuxF vars f (some q) prev (s ++ [q]) = s ++ [q] := by
  intro s
  induction s with
  | nil =>
    intro f prev _ hprev hf
    cases f with
    | zero => simp at hf
    | succ f' =>
      show farbAuxF vars (f' + 1) (some q) prev [q] = [q]
      simp only [farbAuxF]
      rw [if_pos ⟨hq, hprev⟩]
      simp [farbAuxF_nil]
  | cons c cs ih =>
    intro f prev hs hprev hf
    obtain ⟨h1, h2, h3⟩ := hs c (by simp)
    cases f with
    | zero => simp at hf
    | succ f' =>
      show farbAuxF vars (f' + 1) (some q) prev ((c :: cs) ++ [q]) = _
      rw [List.cons_append]
      simp only [farbAuxF]
      rw [if_neg (by simp [h1, h2]), if_neg (by simp)]
      simp only [List.length_cons] at hf
      rw [ih f' (some c) (fun d hd => hs d (by simp [hd]))
        (by simpa using h3) (by omega)]

theorem farb_quoted (vars : List Char → Option (List Char)) (q : Char)
    (s : List Char) (hq : q = '"' ∨ q = '\'')
    (hs : ∀ c ∈ s, c ≠ '"' ∧ c ≠ '\'' ∧ c ≠ '\\') :
    farb vars (q :: s ++ [q]) = q :: s ++ [q] := by
  unfold farb
  have hlen : (q :: s ++ [q]).length = s.length + 1 + 1 := by simp
  rw [hlen]
  simp only [farbAuxF]
  rw [if_pos ⟨hq, by simp⟩, List.append_eq]
  rw [farbAux_in_quote vars q hq s (s.length + 1) (some q) hs
    (by rcases hq with rfl | rfl <;> simp) (Nat.le_refl _)]
  simp

theorem evalExpr_quoted (vars : List Char → Option (List Char)) (q : Char)
    (s : List Char) (hq : q = '"' ∨ q = '\'') :
    evalExpr vars (q :: s ++ [q]) = some s := by
  have hshape : q :: s ++ [q] = (q :: s) ++ [q] := by simp
  have hlast : (q :: s ++ [q]).getLast? = some q := by
    rw [hshape, List.getLast?_concat]
  have hstrip : pyStrip (q :: s ++ [q]) = q :: s ++ [q] := by
    apply pyStrip_eq_self
    · intro c hc
      injection hc with hc
      subst hc
      rcases hq with rfl | rfl <;> decide
    · intro c hc
      rw [hlast] at hc
      injection hc with hc
      subst hc
      rcases hq with rfl | rfl <;> decide
  have hslice : pySlice1m1 (q :: s ++ [q]) = s := by
    simp [pySlice1m1]
  simp only [evalExpr]
  rw [hstrip]
  rcases hq with rfl | rfl
  · rw [if_pos (Or.inl ⟨rfl, hlast⟩), hslice]
  · rw [if_pos (Or.inr ⟨rfl, hlast⟩), hslice]

theorem listStartsWith_append_self (mc rest : List Char) :
    listStartsWith (mc ++ rest) mc = true := by
  induction mc with
  | nil => cases rest <;> rfl
  | cons c cs ih => simp [listStartsWith, ih]

theorem listStartsWith_self (mc : List Char) : listStartsWith mc mc = true := by
  have := listStartsWith_append_self mc []
  simpa using this

/-- Pointwise description of the retry map after the 429 branch. -/
theorem process_throttle_retry (now uid : Nat) (st : EngineState) (v : Nat) :
    (process_throttle now uid st).1.retry v =
      if (st.retry uid).getD 0 + 1 < MAX_RETRY_COUNT then
        (if v = uid then some ((st.retry uid).getD 0 + 1) else st.retry v)
      else (if v = uid then none else st.retry v) := by
  by_cases h : (st.retry uid).getD 0 + 1 < MAX_RETRY_COUNT
  · simp [process_throttle, increment_retry_count, should_retry,
      clear_retry_count, h]
  · simp [process_throttle, increment_retry_count, should_retry,
      clear_retry_count, h]
    by_cases hv : v = uid <;> simp [hv]

/-- Inductive invariant: every recorded retry count is strictly below
`MAX_RETRY_COUNT` between events (3 is cleared immediately). -/
theorem retryReachable_lt {m : RetryMap} (hm : RetryReachable m) :
    ∀ u n, m u = some n → n < MAX_RETRY_COUNT := by
  induction hm with
  | init => intro u n h; simp [RetryMap.empty] at h
  | throttle now uid st _ ih =>
    intro u n h
    rw [process_throttle_retry] at h
    by_cases hr : (st.retry uid).getD 0 + 1 < MAX_RETRY_COUNT
    · rw [if_pos hr] at h
      by_cases hv : u = uid
      · rw [if_pos hv] at h
        injection h with h'
        subst h'
        exact hr
      · rw [if_neg hv] at h
        exact ih u n h
    · rw [if_neg hr] at h
      by_cases hv : u = uid
      · rw [if_pos hv] at h
        cases h
      · rw [if_neg hv] at h
        exact ih u n h
  | success uid st _ ih =>
    intro u n h
    simp only [process_success, clear_retry_count] at h
    by_cases hv : u = uid
    · rw [if_pos hv] at h
      cases h
    · rw [if_neg hv] at h
      exact ih u n h

/-! ### Claim theorems -/

/-- Claim C1 (code_bug): the weekly slow-loop check in
`auto_roles_checker` keeps no last-fired marker — its firing condition is
a pure predicate of the current clock reading, true at every check whose
weekday and hour match the configured trigger, for every minute of that
hour.  Two checks landing in the same scheduled slot (e.g. minute 0 and
minute 30 of the matching hour) therefore both bulk-enqueue the auto
cohorts, contradicting the latched exactly-once requirement. -/
theorem auto_roles_check_no_latch :
    auto_roles_check_fires 6 2 6 2 0 = true
    ∧ auto_roles_check_fires 6 2 6 2 30 = true
    ∧ (∀ m : Fin 60, auto_roles_check_fires 6 2 6 2 m.val = true) := by
  decide

/-- Claim C2: the rate-limit governor starts inactive; `handle_rate_limit`
(observe_throttle) sets the resume time to observation time plus the fixed
5-minute cooldown and makes `is_rate_limited` report true; every query
strictly before the resume time reports true without changing state, and
the first query at or after the resume time lazily resets the state and
reports false. -/
theorem rate_limit_governor_lazy (now q : Nat) (s : RateLimitState) :
    is_rate_limited q RateLimitState.init = some (false, RateLimitState.init)
    ∧ (handle_rate_limit now s).rate_limit_detected = true
    ∧ (handle_rate_limit now s).rate_limit_until =
        some (now + RATE_LIMIT_COOLDOWN)
    ∧ (q < now + RATE_LIMIT_COOLDOWN →
        is_rate_limited q (handle_rate_limit now s) =
          some (true, handle_rate_limit now s))
    ∧ (now + RATE_LIMIT_COOLDOWN ≤ q →
        is_rate_limited q (handle_rate_limit now s) =
          some (false, RateLimitState.init)) := by
  refine ⟨by simp [is_rate_limited, RateLimitState.init], rfl, rfl, ?_, ?_⟩
  · intro h
    simp [is_rate_limited, handle_rate_limit, Nat.not_le.mpr h]
  · intro h
    simp [is_rate_limited, handle_rate_limit, RateLimitState.init, h]

/-- Claim C2 witness: concrete instance (throttle observed at time 100,
queries at 399 and 400). -/
theorem rate_limit_governor_lazy_witness :
    (399 < 100 + RATE_LIMIT_COOLDOWN →
      is_rate_limited 399 (handle_rate_limit 100 RateLimitState.init) =
        some (true, handle_rate_limit 100 RateLimitState.init))
    ∧ (100 + RATE_LIMIT_COOLDOWN ≤ 400 →
      is_rate_limited 400 (handle_rate_limit 100 RateLimitState.init) =
        some (false, RateLimitState.init))
    ∧ (399 < 100 + RATE_LIMIT_COOLDOWN) ∧ (100 + RATE_LIMIT_COOLDOWN ≤ 400) :=
  ⟨(rate_limit_governor_lazy 100 399 RateLimitState.init).2.2.2.1,
   (rate_limit_governor_lazy 100 400 RateLimitState.init).2.2.2.2,
   by decide, by decide⟩

/-- Claim C3: on an explicit "too many requests" response the 429 branch
of `process_single_user` sets the global governor, and re-enqueues the
subject exactly when its recorded attempt count (after the increment)
stays below `MAX_RETRY_COUNT = 3`; otherwise the subject is reported as
exhausted, its queue is left untouched and its retry entry is cleared. -/
theorem throttled_requeue_policy (now uid : Nat) (st : EngineState) :
    (process_throttle now uid st).1.rl = handle_rate_limit now st.rl
    ∧ ((process_throttle now uid st).2 = .requeued ↔
        (st.retry uid).getD 0 + 1 < MAX_RETRY_COUNT)
    ∧ ((process_throttle now uid st).2 = .exhausted ↔
        ¬ ((st.retry uid).getD 0 + 1 < MAX_RETRY_COUNT))
    ∧ ((process_throttle now uid st).2 = .requeued →
        (process_throttle now uid st).1.qm = (st.qm.add_user uid).2)
    ∧ ((process_throttle now uid st).2 = .exhausted →
        (process_throttle now uid st).1.qm = st.qm
        ∧ (process_throttle now uid st).1.retry uid = none) := by
  by_cases h : (st.retry uid).getD 0 + 1 < MAX_RETRY_COUNT
  · simp [process_throttle, increment_retry_count, should_retry,
      clear_retry_count, h]
  · simp [process_throttle, increment_retry_count, should_retry,
      clear_retry_count, h]

/-- Claim C3 witness: a subject with two recorded attempts is re-enqueued
on its next throttle; unfolded at a concrete engine state. -/
theorem throttled_requeue_policy_witness :
    ((process_throttle 0 7
        ⟨RateLimitState.init,
         (fun v => if v = 7 then some 1 else none), QueueManager.init⟩).2
      = .requeued ↔
      (((fun v => if v = 7 then some 1 else none) : RetryMap) 7).getD 0 + 1 <
        MAX_RETRY_COUNT)
    ∧ ((((fun v => if v = 7 then some 1 else none) : RetryMap) 7).getD 0 + 1 <
        MAX_RETRY_COUNT) :=
  ⟨(throttled_requeue_policy 0 7
      ⟨RateLimitState.init,
       (fun v => if v = 7 then some 1 else none), QueueManager.init⟩).2.1,
   by decide⟩

/-- Claim C4: in every state of the retry map reachable through the
throttle / success events, every recorded attempt count lies within
`0 ≤ n ≤ MAX_RETRY_COUNT`; an entry is created with count 1 on a
subject's first throttle failure, cleared on later success, and cleared
when the incremented count no longer stays below the bound. -/
theorem retry_map_invariant (m : RetryMap) (hm : RetryReachable m) :
    (∀ u n, m u = some n → n ≤ MAX_RETRY_COUNT)
    ∧ (∀ now uid (st : EngineState), st.retry = m → m uid = none →
        (process_throttle now uid st).1.retry uid = some 1)
    ∧ (∀ uid (st : EngineState), st.retry = m →
        (process_success uid st).retry uid = none)
    ∧ (∀ now uid (st : EngineState), st.retry = m →
        ¬ ((m uid).getD 0 + 1 < MAX_RETRY_COUNT) →
        (process_throttle now uid st).1.retry uid = none) := by
  refine ⟨fun u n h => Nat.le_of_lt (retryReachable_lt hm u n h), ?_, ?_, ?_⟩
  · intro now uid st hst hnone
    subst hst
    simp [process_throttle, increment_retry_count, should_retry,
      clear_retry_count, hnone, MAX_RETRY_COUNT]
  · intro uid st hst
    simp [process_success, clear_retry_count]
  · intro now uid st hst hge
    subst hst
    simp [process_throttle, increment_retry_count, should_retry,
      clear_retry_count, hge]

/-- Claim C4 witness: the invariant and lifecycle facts instantiated at
the initial (empty) retry map. -/
theorem retry_map_invariant_witness :
    (∀ u n, RetryMap.empty u = some n → n ≤ MAX_RETRY_COUNT)
    ∧ (∀ now uid (st : EngineState), st.retry = RetryMap.empty →
        RetryMap.empty uid = none →
        (process_throttle now uid st).1.retry uid = some 1)
    ∧ (∀ uid (st : EngineState), st.retry = RetryMap.empty →
        (process_success uid st).retry uid = none)
    ∧ (∀ now uid (st : EngineState), st.retry = RetryMap.empty →
        ¬ ((RetryMap.empty uid).getD 0 + 1 < MAX_RETRY_COUNT) →
        (process_throttle now uid st).1.retry uid = none) :=
  retry_map_invariant RetryMap.empty RetryReachable.init

/-- Claim C5: `add_user` inserts a subject id only if absent and returns
true exactly when it was newly inserted; adding twice from the initial
queue leaves the size at 1, and `add_user` preserves the no-duplicates
invariant of the live queue. -/
theorem queue_add_dedup (q : QueueManager) (uid : Nat) :
    ((q.add_user uid).1 = true ↔ uid ∉ q.queue)
    ∧ (uid ∉ q.queue → (q.add_user uid).2.queue = q.queue ++ [uid])
    ∧ (uid ∈ q.queue → (q.add_user uid).2 = q)
    ∧ (q.queue.Nodup → (q.add_user uid).2.queue.Nodup)
    ∧ (((QueueManager.init.add_user uid).2.add_user uid).2.get_queue_size
        = 1) := by
  by_cases h : uid ∈ q.queue
  · refine ⟨by simp [QueueManager.add_user, QueueManager.is_user_in_queue, h],
      by simp [h], fun _ =>
        by simp [QueueManager.add_user, QueueManager.is_user_in_queue, h],
      fun hn => by simpa [QueueManager.add_user, QueueManager.is_user_in_queue, h]
        using hn, ?_⟩
    simp [QueueManager.add_user, QueueManager.is_user_in_queue,
      QueueManager.init, QueueManager.get_queue_size]
  · refine ⟨by simp [QueueManager.add_user, QueueManager.is_user_in_queue, h],
      fun _ =>
        by simp [QueueManager.add_user, QueueManager.is_user_in_queue, h],
      by simp [h], fun hn => ?_, ?_⟩
    · simp only [QueueManager.add_user, QueueManager.is_user_in_queue]
      rw [if_neg (by simpa using h)]
      simpa [List.nodup_append] using ⟨hn, h⟩
    · simp [QueueManager.add_user, QueueManager.is_user_in_queue,
        QueueManager.init, QueueManager.get_queue_size]

/-- Claim C5 witness: concrete queue `[3]`, fresh id `5`. -/
theorem queue_add_dedup_witness :
    (((QueueManager.mk [3] false).add_user 5).1 = true ↔
      5 ∉ (QueueManager.mk [3] false).queue)
    ∧ (5 ∉ (QueueManager.mk [3] false).queue →
        ((QueueManager.mk [3] false).add_user 5).2.queue =
          (QueueManager.mk [3] false).queue ++ [5])
    ∧ (5 ∈ (QueueManager.mk [3] false).queue →
        ((QueueManager.mk [3] false).add_user 5).2 = QueueManager.mk [3] false)
    ∧ ((QueueManager.mk [3] false).queue.Nodup →
        ((QueueManager.mk [3] false).add_user 5).2.queue.Nodup)
    ∧ (((QueueManager.init.add_user 5).2.add_user 5).2.get_queue_size = 1) :=
  queue_add_dedup (QueueManager.mk [3] false) 5

theorem nickSep_length : nickSep.length = 3 := rfl

theorem nickFromCallsign_length (mc cs : List Char) :
    (nickFromCallsign mc cs).length ≤ MAX_NICK_LENGTH := by
  simp only [nickFromCallsign]
  split_ifs with h1 h2 h3
  · exact h1
  · exact h2
  · simp only [List.length_append, List.length_take, nickSep_length,
      MAX_NICK_LENGTH] at h3 ⊢
    omega
  · simp only [List.length_take, MAX_NICK_LENGTH]
    omega

theorem nickFromCallsign_startsWith (mc cs : List Char)
    (h : mc.length ≤ MAX_NICK_LENGTH) :
    listStartsWith (nickFromCallsign mc cs) mc = true := by
  simp only [nickFromCallsign]
  split_ifs with h1 h2 h3
  · rw [List.append_assoc]
    exact listStartsWith_append_self mc _
  · rw [List.append_assoc]
    exact listStartsWith_append_self mc _
  · rw [List.append_assoc]
    exact listStartsWith_append_self mc _
  · rw [List.take_of_length_le h]
    exact listStartsWith_self mc

theorem baseNationEarly_some (mc : List Char) (cn : Option (List Char))
    (nick : List Char) (h : baseNationEarly mc cn = some nick) :
    nick.length ≤ MAX_NICK_LENGTH ∧ listStartsWith nick mc = true := by
  unfold baseNationEarly at h
  match cn with
  | none => cases h
  | some s =>
    simp only at h
    split_ifs at h with h1 h2 h3
    · injection h with h'
      subst h'
      refine ⟨h3, ?_⟩
      rw [List.append_assoc]
      exact listStartsWith_append_self mc _

/-- Claim C8: the computed nickname never exceeds the 32-character
platform limit; while the Minecraft id itself fits the limit it is kept
as a prefix of the result (identity name takes priority over the label);
and when the plain `mc ㅣ nation` form overflows but the abbreviated form
fits, the abbreviated form is exactly what is returned. -/
theorem create_nickname_length_priority (base mc nation : List Char)
    (cn town : Option (List Char)) :
    (create_nicknameL base mc nation cn town).length ≤ MAX_NICK_LENGTH
    ∧ (mc.length ≤ MAX_NICK_LENGTH →
        listStartsWith (create_nicknameL base mc nation cn town) mc = true)
    ∧ (nation ≠ "❌".data → nation ≠ "무소속".data → nation ≠ base →
        MAX_NICK_LENGTH < (mc ++ nickSep ++ nation).length →
        (mc ++ nickSep ++ abbreviate_nation_nameL nation).length ≤
          MAX_NICK_LENGTH →
        create_nicknameL base mc nation cn town =
          mc ++ nickSep ++ abbreviate_nation_nameL nation) := by
  refine ⟨?_, ?_, ?_⟩
  · unfold create_nicknameL
    split_ifs
    · exact nickFromCallsign_length mc _
    · exact nickFromCallsign_length mc _
    · match hh : baseNationEarly mc cn with
      | some nick => exact (baseNationEarly_some mc cn nick hh).1
      | none => exact nickFromCallsign_length mc _
    · exact nickFromCallsign_length mc _
  · intro hmc
    unfold create_nicknameL
    split_ifs
    · exact nickFromCallsign_startsWith mc _ hmc
    · exact nickFromCallsign_startsWith mc _ hmc
    · match hh : baseNationEarly mc cn with
      | some nick => exact (baseNationEarly_some mc cn nick hh).2
      | none => exact nickFromCallsign_startsWith mc _ hmc
    · exact nickFromCallsign_startsWith mc _ hmc
  · intro h1 h2 h3 hover hfits
    unfold create_nicknameL
    rw [if_neg h1, if_neg h2, if_neg h3]
    simp only [nickFromCallsign, pickAbbrev]
    rw [if_neg (Nat.not_le.mpr hover), if_neg h2, if_neg h1, if_pos hfits]

/-- Claim C8 witness: a 22-character Minecraft id with nation
`Red_Mafia` overflows the plain form; the abbreviated form is returned
and the id is kept in full. -/
theorem create_nickname_length_priority_witness :
    (create_nicknameL "Base".data "PlayerName1234567890ab".data
        "Red_Mafia".data none none).length ≤ MAX_NICK_LENGTH
    ∧ listStartsWith
        (create_nicknameL "Base".data "PlayerName1234567890ab".data
          "Red_Mafia".data none none) "PlayerName1234567890ab".data = true
    ∧ create_nicknameL "Base".data "PlayerName1234567890ab".data
        "Red_Mafia".data none none =
        "PlayerName1234567890ab".data ++ nickSep ++
          abbreviate_nation_nameL "Red_Mafia".data :=
  ⟨(create_nickname_length_priority "Base".data "PlayerName1234567890ab".data
      "Red_Mafia".data none none).1,
   (create_nickname_length_priority "Base".data "PlayerName1234567890ab".data
      "Red_Mafia".data none none).2.1 (by decide),
   (create_nickname_length_priority "Base".data "PlayerName1234567890ab".data
      "Red_Mafia".data none none).2.2 (by decide) (by decide) (by decide)
      (by decide) (by decide)⟩

/-- Claim C9: `abbreviate_nation_name` splits on `'_'`; with at least two
(non-empty) segments it returns the segments' first letters uppercased and
joined with `'.'`; with no underscore it returns the uppercase letters
joined with `'.'`, or the first five characters when there are none; and
`"Red_Mafia"` abbreviates to `"R.M"`. -/
theorem abbreviate_nation_name_spec (label : List Char) :
    (2 ≤ (splitOnChar '_' label).length →
      (∀ p ∈ splitOnChar '_' label, p ≠ []) →
      abbreviate_nation_nameL label =
        List.intercalate ['.']
          ((splitOnChar '_' label).map fun p => [(p.headD 'A').toUpper]))
    ∧ ((splitOnChar '_' label).length ≤ 1 →
        label.filter isUpperAscii ≠ [] →
        abbreviate_nation_nameL label =
          List.intercalate ['.']
            ((label.filter isUpperAscii).map fun c => [c]))
    ∧ ((splitOnChar '_' label).length ≤ 1 →
        label.filter isUpperAscii = [] →
        abbreviate_nation_nameL label = label.take 5)
    ∧ abbreviate_nation_nameL "Red_Mafia".data = "R.M".data := by
  refine ⟨?_, ?_, ?_, by decide⟩
  · intro hlen hne
    unfold abbreviate_nation_nameL
    rw [if_neg (by omega)]
    have hfilter : (splitOnChar '_' label).filter (· ≠ []) =
        splitOnChar '_' label := by
      rw [List.filter_eq_self]
      intro a ha
      simpa using hne a ha
    rw [hfilter]
    congr 1
    apply List.map_congr_left
    intro p hp
    match p, hne p hp with
    | c :: _, _ => rfl
  · intro hlen hcap
    unfold abbreviate_nation_nameL
    rw [if_pos hlen, if_pos (by simpa using hcap)]
  · intro hlen hcap
    unfold abbreviate_nation_nameL
    rw [if_pos hlen, if_neg (by simpa using hcap)]

/-- Claim C9 witness: the `"Red_Mafia"` instance of the two-segment
branch. -/
theorem abbreviate_nation_name_spec_witness :
    abbreviate_nation_nameL "Red_Mafia".data =
      List.intercalate ['.']
        ((splitOnChar '_' "Red_Mafia".data).map fun p =>
          [(p.headD 'A').toUpper]) :=
  (abbreviate_nation_name_spec "Red_Mafia".data).1 (by decide) (by decide)

/-- Claim C6 (amended): for every fallback group whose expressions are
non-empty flat concatenations of well-formed variable references and
quoted literals, with the exception of compound expressions that either
begin and end with literals of the same quote character or begin and end
with variable references (which the scanner mis-reads as one literal /
one variable name), `process_fallback` computes exactly the specified
semantics: the value of the first expression, left to right, whose
evaluation — failing as a whole when any referenced variable is empty or
unset — is non-empty, and the empty string when all expressions fail. -/
theorem fallback_group_semantics (vars : List Char → Option (List Char))
    (es : List (List SpecAtom)) (hne : es ≠ [])
    (hwf : ∀ e ∈ es, e ≠ [] ∧ (∀ a ∈ e, wfAtomB a = true) ∧
      quirkFreeB e = true) :
    processFallback vars (renderGroup es) = specFallback vars es := by
  unfold processFallback
  rw [splitOpts_group es [] hne (fun e he => ⟨(hwf e he).1, (hwf e he).2.1⟩),
    List.nil_append]
  exact firstTruthy_renders vars es hwf

/-- Claim C6 counterexample: in the group `["a"{NN}"b"/"X"]` with `NN`
unset, the claim requires the first expression to fail (it references the
empty `NN`) and the group to fall back to `X`; the code instead treats
the whole first expression as a single literal because it begins and ends
with `"`, and the group yields the raw text `a"{NN}"b`. -/
theorem fallback_group_counterexample :
    processFallback (mkVars none none none none)
        "\"a\"{NN}\"b\"/\"X\"".data = "a\"{NN}\"b".data
    ∧ renderGroup
        [[.litStr '"' "a".data, .varRef "NN".data, .litStr '"' "b".data],
         [.litStr '"' "X".data]] = "\"a\"{NN}\"b\"/\"X\"".data
    ∧ specFallback (mkVars none none none none)
        [[.litStr '"' "a".data, .varRef "NN".data, .litStr '"' "b".data],
         [.litStr '"' "X".data]] = "X".data
    ∧ processFallback (mkVars none none none none)
        "\"a\"{NN}\"b\"/\"X\"".data ≠ "X".data :=
  ⟨by decide, by decide, by decide, by decide⟩

/-- Claim C6 witness: the specification's own example
`[{CC}/{NN}/"Guest"]` with `CC` empty and `NN = "Acme"` evaluates to
`Acme`, through the proved group semantics. -/
theorem fallback_group_semantics_witness :
    processFallback (mkVars none (some "Acme".data) none (some "".data))
        (renderGroup [[.varRef "CC".data], [.varRef "NN".data],
          [.litStr '"' "Guest".data]]) =
      specFallback (mkVars none (some "Acme".data) none (some "".data))
        [[.varRef "CC".data], [.varRef "NN".data],
         [.litStr '"' "Guest".data]]
    ∧ specFallback (mkVars none (some "Acme".data) none (some "".data))
        [[.varRef "CC".data], [.varRef "NN".data],
         [.litStr '"' "Guest".data]] = "Acme".data
    ∧ renderGroup [[.varRef "CC".data], [.varRef "NN".data],
        [.litStr '"' "Guest".data]] = "{CC}/{NN}/\"Guest\"".data :=
  ⟨fallback_group_semantics (mkVars none (some "Acme".data) none
      (some "".data))
      [[.varRef "CC".data], [.varRef "NN".data],
       [.litStr '"' "Guest".data]] (by decide) (by decide),
   by decide, by decide⟩

/-- Claim C7 (amended): a quoted literal is protected by the quote
tracking of the scanner — `find_and_replace_brackets` copies a top-level
quoted literal through verbatim, with its quote delimiters and with `/`,
`[`, `]` inside the quotes treated as plain characters, and
`evaluate_expression` evaluates a quoted literal inside a group to its
inner text; the template `{NN} "A/B" {CC}` is not split at the quoted
`/`.  (Outside groups the delimiters themselves are kept in the output;
they are stripped only inside fallback groups — see the
counterexample.) -/
theorem quoted_literal_scan (vars : List Char → Option (List Char))
    (q : Char) (s : List Char) (hq : q = '"' ∨ q = '\'')
    (hs : ∀ c ∈ s, c ≠ '"' ∧ c ≠ '\'' ∧ c ≠ '\\') :
    farb vars (q :: s ++ [q]) = q :: s ++ [q]
    ∧ evalExpr vars (q :: s ++ [q]) = some s
    ∧ apply_format_to_nickname "{NN} \"A/B\" {CC}" none (some "N") none
        (some "C") = "N \"A/B\" C" :=
  ⟨farb_quoted vars q s hq hs, evalExpr_quoted vars q s hq, by decide⟩

/-- Claim C7 counterexample: the claim says a quoted literal contributes
exactly its inner text to the output, but outside a fallback group the
formatter keeps the quote characters: applying the template `"A/B"`
yields `"A/B"` with quotes, not `A/B`. -/
theorem quoted_literal_counterexample :
    apply_format_to_nickname "\"A/B\"" none none none none = "\"A/B\""
    ∧ ("\"A/B\"" : String) ≠ "A/B" :=
  ⟨by decide, by decide⟩

/-- Claim C7 witness: a double-quoted literal containing `/`, `[` and `]`
passes through the bracket scanner untouched and evaluates to its inner
text inside a group. -/
theorem quoted_literal_scan_witness :
    farb (mkVars none none none none) ('"' :: "A/[B]".data ++ ['"']) =
      '"' :: "A/[B]".data ++ ['"']
    ∧ evalExpr (mkVars none none none none) ('"' :: "A/[B]".data ++ ['"']) =
      some "A/[B]".data :=
  ⟨(quoted_literal_scan (mkVars none none none none) '"' "A/[B]".data
      (Or.inl rfl) (by decide)).1,
   (quoted_literal_scan (mkVars none none none none) '"' "A/[B]".data
      (Or.inl rfl) (by decide)).2.1⟩

theorem mkVars_nation_sentinel (mc town cs : Option (List Char))
    (v : List Char)
    (hv : v = [] ∨ v = "❌".data ∨ v = "무소속".data) :
    mkVars mc (some v) town cs = mkVars mc none town cs := by
  funext name
  simp only [mkVars]
  split_ifs <;> first
    | rfl
    | (rcases hv with rfl | rfl | rfl <;> decide)

theorem mkVars_town_sentinel (mc nation cs : Option (List Char))
    (v : List Char)
    (hv : v = [] ∨ v = "❌".data ∨ v = "무소속".data) :
    mkVars mc nation (some v) cs = mkVars mc nation none cs := by
  funext name
  simp only [mkVars]
  split_ifs <;> first
    | rfl
    | (rcases hv with rfl | rfl | rfl <;> decide)

theorem mkVars_mc_sentinel (nation town cs : Option (List Char))
    (v : List Char)
    (hv : v = [] ∨ v = "❌".data ∨ v = "Unknown".data) :
    mkVars (some v) nation town cs = mkVars none nation town cs := by
  funext name
  simp only [mkVars]
  split_ifs <;> first
    | rfl
    | (rcases hv with rfl | rfl | rfl <;> decide)

/-- Claim C10: the formatter treats the sentinel values as unset
variables: supplying `""`, `"❌"` or `"무소속"` for the nation (`{NN}`)
or town (`{TT}`), or `""`, `"❌"` or `"Unknown"` for the Minecraft id
(`{MC}`/`{MF}`), produces exactly the output obtained with no value at
all: the bare reference substitutes to the empty string and a fallback
expression referencing it fails. -/
theorem sentinel_values_unset (t : String) (mc nation town cs : Option String)
    (v : String) :
    ((v = "" ∨ v = "❌" ∨ v = "무소속") →
      apply_format_to_nickname t mc (some v) town cs =
        apply_format_to_nickname t mc none town cs
      ∧ apply_format_to_nickname t mc nation (some v) cs =
        apply_format_to_nickname t mc nation none cs)
    ∧ ((v = "" ∨ v = "❌" ∨ v = "Unknown") →
      apply_format_to_nickname t (some v) nation town cs =
        apply_format_to_nickname t none nation town cs)
    ∧ apply_format_to_nickname "{NN}" none none none none = ""
    ∧ apply_format_to_nickname "[{NN}/\"F\"]" none none none none = "F" := by
  refine ⟨fun hv => ⟨?_, ?_⟩, fun hv => ?_, ?_, ?_⟩
  · have hv' : v.data = [] ∨ v.data = "❌".data ∨ v.data = "무소속".data := by
      rcases hv with rfl | rfl | rfl
      · exact Or.inl rfl
      · exact Or.inr (Or.inl rfl)
      · exact Or.inr (Or.inr rfl)
    simp only [apply_format_to_nickname, Option.map_some', Option.map_none']
    rw [mkVars_nation_sentinel _ _ _ _ hv']
  · have hv' : v.data = [] ∨ v.data = "❌".data ∨ v.data = "무소속".data := by
      rcases hv with rfl | rfl | rfl
      · exact Or.inl rfl
      · exact Or.inr (Or.inl rfl)
      · exact Or.inr (Or.inr rfl)
    simp only [apply_format_to_nickname, Option.map_some', Option.map_none']
    rw [mkVars_town_sentinel _ _ _ _ hv']
  · have hv' : v.data = [] ∨ v.data = "❌".data ∨ v.data = "Unknown".data := by
      rcases hv with rfl | rfl | rfl
      · exact Or.inl rfl
      · exact Or.inr (Or.inl rfl)
      · exact Or.inr (Or.inr rfl)
    simp only [apply_format_to_nickname, Option.map_some', Option.map_none']
    rw [mkVars_mc_sentinel _ _ _ _ hv']
  · decide
  · decide

/-- Claim C10 witness: `"❌"` supplied as the nation behaves exactly like
an absent nation on the template `a{NN}b`. -/
theorem sentinel_values_unset_witness :
    (apply_format_to_nickname "a{NN}b" none (some "❌") none none =
      apply_format_to_nickname "a{NN}b" none none none none)
    ∧ apply_format_to_nickname "a{NN}b" none (some "❌") none none = "ab" :=
  ⟨((sentinel_values_unset "a{NN}b" none none none none "❌").1
      (Or.inr (Or.inl rfl))).1,
   by decide⟩

end PMDBot
